import Mathlib

/-!
Shallow embedding of `perftrace` (src/perftrace/__main__.py), a converter
from `perf script` text output to a chrome://tracing JSON event array.

The pipeline is `parse_events` (text lines to stack samples), `merge_events`
(per-thread stack diffing producing BEGIN/END interval events) and `convert`
(serialisation to a JSON array of trace objects).

Modelling conventions:
* Python floats are modelled as exact rationals `ℚ`; the claims under study
  concern which timestamp is used, not floating-point rounding.
* Lazy generators become functions returning the list of values yielded
  before the input was exhausted or an exception was raised, together with a
  `Bool` that is `true` iff no exception was raised.
* Python's insertion-ordered `dict` is modelled as an association list whose
  update replaces in place and whose insert appends at the end.
-/

/-- Python whitespace test used by `str.split()` and `str.strip()`. -/
def pyIsSpace (c : Char) : Bool :=
  c = ' ' || c = '\t' || c = '\n' || c = '\r' || c = '\x0b' || c = '\x0c'

/-- `str.split()` with no argument: split on runs of whitespace, dropping
empty pieces.  Worker carrying the (reversed) current token. -/
def pySplitWsGo : List Char → List Char → List (List Char)
  | [], acc => if acc = [] then [] else [acc.reverse]
  | c :: cs, acc =>
    if pyIsSpace c then
      if acc = [] then pySplitWsGo cs []
      else acc.reverse :: pySplitWsGo cs []
    else pySplitWsGo cs (c :: acc)

/-- Python `line.split()` (no separator argument). -/
def pySplitWs (s : String) : List String :=
  (pySplitWsGo s.data []).map String.mk

/-- `str.split(sep)` for a one-character separator: keeps empty pieces. -/
def pySplitOnGo (sep : Char) : List Char → List Char → List (List Char)
  | [], acc => [acc.reverse]
  | c :: cs, acc =>
    if c = sep then acc.reverse :: pySplitOnGo sep cs []
    else pySplitOnGo sep cs (c :: acc)

/-- Python `s.split(sep)` for a single-character separator. -/
def pySplitOn (s : String) (sep : Char) : List String :=
  (pySplitOnGo sep s.data []).map String.mk

/-- Python `s.strip(chars)`: remove leading and trailing characters that are
members of `set`. -/
def pyStripChars (set : List Char) (s : String) : String :=
  String.mk (((s.data.dropWhile set.contains).reverse.dropWhile set.contains).reverse)

/-- Python `s.strip()` (whitespace strip). -/
def pyStrip (s : String) : String :=
  String.mk (((s.data.dropWhile pyIsSpace).reverse.dropWhile pyIsSpace).reverse)

/-- All characters are decimal digits. -/
def allDigits (l : List Char) : Bool := l.all Char.isDigit

/-- Numeric value of a digit string (most significant first). -/
def natOfDigits (l : List Char) : Nat :=
  l.foldl (fun acc c => acc * 10 + (c.toNat - 48)) 0

/-- Modelled builtin: Python `int(s)` on plain decimal literals (optional
surrounding whitespace, optional sign, one or more digits).  Exotic forms
(underscores, bases) are outside the model; on anything else the builtin
raises `ValueError`, modelled as `none`. -/
def pyInt (s : String) : Option Int :=
  let core : List Char → Option Nat := fun ds =>
    if ds ≠ [] ∧ allDigits ds then some (natOfDigits ds) else none
  match (pyStrip s).data with
  | '+' :: ds => (core ds).map Int.ofNat
  | '-' :: ds => (core ds).map fun n => -(n : Int)
  | ds => (core ds).map Int.ofNat

/-- Decimal literal (digits with at most one point, at least one digit in
total) as an exact rational. -/
def decToRat (ds : List Char) : Option ℚ :=
  match pySplitOnGo '.' ds [] with
  | [ip] => if ip ≠ [] ∧ allDigits ip then some (natOfDigits ip) else none
  | [ip, fp] =>
    if (ip ≠ [] ∨ fp ≠ []) ∧ allDigits ip ∧ allDigits fp then
      some ((natOfDigits ip : ℚ) + (natOfDigits fp : ℚ) / (10 ^ fp.length : ℚ))
    else none
  | _ => none

/-- Modelled builtin: Python `float(s)` on plain decimal literals (optional
surrounding whitespace, optional sign, digits with an optional fractional
part).  Exponents, `inf`/`nan` and underscores are outside the model; on
anything else the builtin raises `ValueError`, modelled as `none`. -/
def pyFloat (s : String) : Option ℚ :=
  match (pyStrip s).data with
  | '+' :: ds => decToRat ds
  | '-' :: ds => (decToRat ds).map Neg.neg
  | ds => decToRat ds

/-- `Event` dataclass: one stack sample.  `time` is in seconds, `stack` is
root-first, leaf-last. -/
structure Event where
  pid : Int
  tid : Int
  time : ℚ
  comm : String
  stack : List String := []
deriving Repr, DecidableEq

/-- `EventType` enum. -/
inductive EventType where
  | BEGIN
  | END
deriving Repr, DecidableEq

/-- `MergedEvent` dataclass: a BEGIN/END marker for the frame at index
`stack_top` of `event.stack`. -/
structure MergedEvent where
  event : Event
  event_type : EventType
  stack_top : Nat
deriving Repr, DecidableEq

/-- Parse one header line `"<comm> <pid>/<tid> <timestamp>:"`.  `none`
models the `ValueError` raised when the line does not split into exactly
three whitespace tokens, the pid/tid token does not split into exactly two
parts on `/`, pid or tid is not an integer, or the timestamp (after
stripping `:`) is not numeric. -/
def parseHeader (line : String) : Option Event :=
  match pySplitWs line with
  | [comm, pid_tid, time] =>
    match pySplitOn pid_tid '/' with
    | [pid, tid] =>
      match pyInt pid, pyInt tid, pyFloat (pyStripChars [':'] time) with
      | some p, some t, some tm =>
        some { comm := comm, pid := p, tid := t, time := tm }
      | _, _, _ => none
    | _ => none
  | _ => none

/-- Body of `parse_events`.  The second argument is the loop state:
`none` means `new_event = True` (expecting a header), `some e` means a
record for `e` is being accumulated.  Returns the events yielded, and
`true` iff the loop finished without raising.  A record whose frame lines
are not followed by a blank line before end of input is never yielded. -/
def parseGo : List String → Option Event → List Event × Bool
  | [], _ => ([], true)
  | line :: rest, none =>
    match parseHeader line with
    | none => ([], false)
    | some e => parseGo rest (some e)
  | line :: rest, some e =>
    if pyStrip line = "" then
      let e' := if e.stack = [] then { e with stack := ["[[nostack]]"] } else e
      let r := parseGo rest none
      (e' :: r.1, r.2)
    else
      match pySplitWs line with
      | [] => ([], false)
      | _addr :: sym =>
        parseGo rest (some { e with stack := String.join sym :: e.stack })

/-- `parse_events`: the input stream as a list of lines (without trailing
newlines) to the list of samples yielded, plus `true` iff no exception. -/
def parse_events (lines : List String) : List Event × Bool :=
  parseGo lines none

/-- `mismatch(lhs, rhs)`: index of the first position where the two lists
differ, or the length of the shorter list when one is a prefix of the
other. -/
def mismatch {α : Type} [DecidableEq α] : List α → List α → Nat
  | [], _ => 0
  | _, [] => 0
  | l :: ls, r :: rs => if l = r then mismatch ls rs + 1 else 0

/-- Thread key `(pid, tid)`. -/
abbrev Xid := Int × Int

/-- The `xid` of a sample. -/
def xidOf (e : Event) : Xid := (e.pid, e.tid)

/-- Lookup in an insertion-ordered association list (a Python `dict`). -/
def alistGet {β : Type} : List (Xid × β) → Xid → Option β
  | [], _ => none
  | p :: rest, k => if p.1 = k then some p.2 else alistGet rest k

/-- Update in an insertion-ordered association list: replace in place when
the key is present, append at the end otherwise (Python `dict` semantics). -/
def alistSet {β : Type} : List (Xid × β) → Xid → β → List (Xid × β)
  | [], k, v => [(k, v)]
  | p :: rest, k, v =>
    if p.1 = k then (k, v) :: rest else p :: alistSet rest k v

/-- `depth_by_xid[k]` with `defaultdict(lambda: 0)` semantics. -/
def depthGet (m : List (Xid × Int)) (k : Xid) : Int :=
  (alistGet m k).getD 0

/-- State of the `merge_events` loop: the `last_event_by_xid` dict, the
(unused downstream) `latest_time` and `event_id` accumulators, and the
`depth_by_xid` defaultdict. -/
structure MergeState where
  last : List (Xid × Event)
  latest_time : ℚ
  event_id : Nat
  depth : List (Xid × Int)
deriving Repr, DecidableEq

/-- BEGIN events for `e.stack[midx:]`: the loop
`for i, _frame in enumerate(event.stack[mismatch_idx:])` yielding
`stack_top = i + mismatch_idx`. -/
def beginsFrom (e : Event) (midx : Nat) : List MergedEvent :=
  (List.range (e.stack.length - midx)).map fun i =>
    { event := e, event_type := EventType.BEGIN, stack_top := i + midx }

/-- END events for `e.stack[midx:]`, leaf-first: the loop
`for i, _frame in enumerate(reversed(last_event.stack[mismatch_idx:]))`
yielding `stack_top = le_len - (i + 1)`. -/
def endsFrom (e : Event) (midx : Nat) : List MergedEvent :=
  (List.range (e.stack.length - midx)).map fun i =>
    { event := e, event_type := EventType.END, stack_top := e.stack.length - (i + 1) }

/-- One iteration of the `merge_events` loop on sample `event`.  Returns the
new state, the merged events yielded, and the value of the trailing
`assert depth_by_xid[xid] == len(last_event_by_xid[xid].stack)` (vacuously
`true` on the `continue` path, which skips both the dict update and the
assert).  The per-event `depth_by_xid[xid] += 1` / `-= 1` increments are
folded into one arithmetic update per branch. -/
def mergeStep (s : MergeState) (event : Event) : MergeState × List MergedEvent × Bool :=
  let xid := xidOf event
  let latest := max s.latest_time event.time
  let eid := s.event_id + 1
  match alistGet s.last xid with
  | none =>
    let depth' := alistSet s.depth xid (depthGet s.depth xid + (event.stack.length : Int))
    (⟨alistSet s.last xid event, latest, eid, depth'⟩,
     beginsFrom event 0,
     decide (depthGet depth' xid = (event.stack.length : Int)))
  | some last_event =>
    if last_event.stack = event.stack then
      (⟨s.last, latest, eid, s.depth⟩, [], true)
    else
      let midx := mismatch last_event.stack event.stack
      let closed : Event := { last_event with time := event.time }
      let depth' := alistSet s.depth xid
        (depthGet s.depth xid - ((last_event.stack.length : Int) - (midx : Int))
          + ((event.stack.length : Int) - (midx : Int)))
      (⟨alistSet s.last xid event, latest, eid, depth'⟩,
       endsFrom closed midx ++ beginsFrom event midx,
       decide (depthGet depth' xid = (event.stack.length : Int)))

/-- The `merge_events` loop over the parsed samples.  Returns the merged
events yielded, the final state, and `true` iff no assertion failed; a
failed assertion stops the loop after that sample's yields (the generator
raises `AssertionError` at that point). -/
def mergeRun : List Event → MergeState → List MergedEvent × MergeState × Bool
  | [], s => ([], s, true)
  | e :: es, s =>
    match mergeStep s e with
    | (s', evs, ok) =>
      if ok then
        match mergeRun es s' with
        | (evs2, s'', ok2) => (evs ++ evs2, s'', ok2)
      else (evs, s', false)

/-- End-of-input flush: `for xid, last_event in last_event_by_xid.items()`,
emitting END events for the whole remembered stack, leaf-first
(`last_event.stack[::-1]` with `stack_top = le_len - (i + 1)`), in the
dict's insertion order. -/
def flushEvents (m : List (Xid × Event)) : List MergedEvent :=
  m.flatMap fun p => endsFrom p.2 0

/-- Initial state of `merge_events`: empty dicts, `latest_time = 0.0`,
`event_id = 0`. -/
def initState : MergeState := ⟨[], 0, 0, []⟩

/-- The merger on a sample sequence, flush included — the events produced
when neither the parser nor an assertion raises. -/
def mergeFull (events : List Event) : List MergedEvent :=
  let r := mergeRun events initState
  r.1 ++ flushEvents r.2.1.last

/-- `merge_events` on the raw input: merged events actually yielded, plus
`true` iff the whole pipeline finished without raising.  The flush runs
only when the parser finished normally and no assertion failed (an
exception from either propagates out of the generator before the flush). -/
def merge_events (lines : List String) : List MergedEvent × Bool :=
  let p := parse_events lines
  let r := mergeRun p.1 initState
  if r.2.2 then
    if p.2 then (r.1 ++ flushEvents r.2.1.last, true) else (r.1, false)
  else (r.1, false)

/-- One JSON object written by `convert` (`json.dump` argument). -/
structure TraceEvent where
  name : String
  cat : String
  ph : String
  ts : ℚ
  pid : Int
  tid : Int
deriving Repr, DecidableEq

/-- `SEC_TO_MS` constant from `convert` (numerically a seconds-to-
microseconds factor). -/
def SEC_TO_MS : ℚ := 1000000

/-- The JSON object `convert` builds for one merged event (`stack.getD`
with a default is only reached when `stack_top` is in range, where it
equals the Python indexing). -/
def traceOf (m : MergedEvent) : TraceEvent :=
  { name := m.event.stack.getD m.stack_top ""
    cat := m.event.comm
    ph := match m.event_type with | EventType.BEGIN => "B" | EventType.END => "E"
    ts := m.event.time * SEC_TO_MS
    pid := m.event.pid
    tid := m.event.tid }

/-- `event.event.stack[event.stack_top]` does not raise `IndexError`. -/
def inRange (m : MergedEvent) : Bool :=
  m.stack_top < m.event.stack.length

/-- Tokens written to the output file by `convert`. -/
inductive OutTok where
  | openB
  | comma
  | obj (t : TraceEvent)
  | closeB
deriving Repr, DecidableEq

/-- Body of `convert`'s loop.  The comma separator is printed before the
frame name is looked up, so an `IndexError` on a non-first event leaves a
trailing comma; on `IndexError` the loop reports the event (to stdout, not
modelled) and breaks.  Returns the tokens written and `true` iff the loop
consumed its whole input without breaking. -/
def convertGo : List MergedEvent → Bool → List OutTok × Bool
  | [], _ => ([], true)
  | m :: ms, first =>
    let pre : List OutTok := if first then [] else [OutTok.comma]
    if inRange m then
      let r := convertGo ms false
      (pre ++ OutTok.obj (traceOf m) :: r.1, r.2)
    else (pre, false)

/-- The emitter on a merged-event sequence: `pok = false` models the lazy
producer raising once the events in `ms` are exhausted, in which case the
closing `]` is never printed; a break from `IndexError` never advances the
producer that far, so the `]` is printed. -/
def emit (ms : List MergedEvent) (pok : Bool) : List OutTok :=
  let r := convertGo ms true
  if r.2 && !pok then OutTok.openB :: r.1
  else OutTok.openB :: r.1 ++ [OutTok.closeB]

/-- `convert`: the full pipeline from input lines to output tokens. -/
def convert (lines : List String) : List OutTok :=
  emit (merge_events lines).1 (merge_events lines).2

/-- The JSON objects among the output tokens. -/
def objsOf (toks : List OutTok) : List TraceEvent :=
  toks.filterMap fun t => match t with | OutTok.obj e => some e | _ => none

/-! ### Concrete samples and states used to instantiate the theorems -/

/-- Sample with stack `[a, b, c]` at time 3 (the spec's divergence example). -/
def sampleABC : Event :=
  { pid := 1, tid := 2, time := 3, comm := "comm", stack := ["a", "b", "c"] }

/-- Follow-up sample with stack `[a, b, d, e]` at time 4 for the same thread. -/
def sampleABDE : Event :=
  { pid := 1, tid := 2, time := 4, comm := "comm", stack := ["a", "b", "d", "e"] }

/-- Sample with the same stack as `sampleABC` but a later timestamp. -/
def sampleABC9 : Event :=
  { pid := 1, tid := 2, time := 9, comm := "comm", stack := ["a", "b", "c"] }

/-- Merger state after processing `sampleABC` as the first sample. -/
def stateABC : MergeState :=
  { last := [((1, 2), sampleABC)], latest_time := 3, event_id := 1,
    depth := [((1, 2), 3)] }

/-- The END event the divergence `sampleABC` to `sampleABDE` must produce:
frame `c` (index 2), closed at the incoming sample's time. -/
def xEndABC : MergedEvent :=
  { event := { sampleABC with time := 4 }, event_type := EventType.END,
    stack_top := 2 }

/-- A merged event whose frame index 5 is out of range for its one-frame
sample (the emitter's `IndexError` case). -/
def badMerged : MergedEvent :=
  { event := { pid := 1, tid := 2, time := 3, comm := "comm", stack := ["a"] },
    event_type := EventType.BEGIN, stack_top := 5 }

/-! ### Association-list (Python dict) lemmas -/

@[simp]
theorem alistGet_alistSet_self {β : Type} (m : List (Xid × β)) (k : Xid) (v : β) :
    alistGet (alistSet m k v) k = some v := by
  induction m with
  | nil => simp [alistGet, alistSet]
  | cons p rest ih =>
    by_cases h : p.1 = k <;> simp [alistGet, alistSet, h, ih]

theorem alistGet_alistSet_ne {β : Type} (m : List (Xid × β)) (k k' : Xid) (v : β)
    (h : k' ≠ k) : alistGet (alistSet m k v) k' = alistGet m k' := by
  have hkk : ¬ k = k' := fun hh => h hh.symm
  induction m with
  | nil => simp [alistGet, alistSet, hkk]
  | cons p rest ih =>
    by_cases hp : p.1 = k
    · simp [alistGet, alistSet, hp, hkk]
    · simp [alistGet, alistSet, hp, ih]

theorem mem_of_mem_alistSet {β : Type} {m : List (Xid × β)} {k : Xid} {v : β}
    {p : Xid × β} (h : p ∈ alistSet m k v) : p ∈ m ∨ p = (k, v) := by
  induction m with
  | nil => simpa [alistSet] using h
  | cons q rest ih =>
    by_cases hq : q.1 = k
    · rw [alistSet, if_pos hq] at h
      rcases List.mem_cons.1 h with h1 | h1
      · exact Or.inr h1
      · exact Or.inl (List.mem_cons_of_mem _ h1)
    · rw [alistSet, if_neg hq] at h
      rcases List.mem_cons.1 h with h1 | h1
      · exact Or.inl (h1 ▸ List.mem_cons_self q rest)
      · rcases ih h1 with h2 | h2
        · exact Or.inl (List.mem_cons_of_mem _ h2)
        · exact Or.inr h2

theorem fst_mem_of_mem_alistSet {β : Type} {m : List (Xid × β)} {k : Xid} {v : β}
    {x : Xid} (h : x ∈ (alistSet m k v).map Prod.fst) :
    x ∈ m.map Prod.fst ∨ x = k := by
  rcases List.mem_map.1 h with ⟨p, hp, rfl⟩
  rcases mem_of_mem_alistSet hp with h' | h'
  · exact Or.inl (List.mem_map_of_mem _ h')
  · exact Or.inr (by rw [h'])

theorem nodup_map_fst_alistSet {β : Type} {m : List (Xid × β)} (k : Xid) (v : β)
    (h : (m.map Prod.fst).Nodup) : ((alistSet m k v).map Prod.fst).Nodup := by
  induction m with
  | nil => simp [alistSet]
  | cons p rest ih =>
    simp only [List.map_cons, List.nodup_cons] at h
    by_cases hp : p.1 = k
    · rw [alistSet, if_pos hp]
      simp only [List.map_cons, List.nodup_cons]
      exact ⟨fun hm => h.1 (hp ▸ hm), h.2⟩
    · rw [alistSet, if_neg hp]
      simp only [List.map_cons, List.nodup_cons]
      refine ⟨fun hm => ?_, ih h.2⟩
      rcases fst_mem_of_mem_alistSet hm with h' | h'
      · exact h.1 h'
      · exact hp h'

theorem alistGet_eq_none_of_not_mem {β : Type} {m : List (Xid × β)} {k : Xid}
    (h : k ∉ m.map Prod.fst) : alistGet m k = none := by
  induction m with
  | nil => simp [alistGet]
  | cons p rest ih =>
    simp only [List.map_cons, List.mem_cons, not_or] at h
    have h1 : ¬ p.1 = k := fun hh => h.1 hh.symm
    simp [alistGet, h1, ih h.2]

theorem mem_of_alistGet {β : Type} {m : List (Xid × β)} {k : Xid} {v : β}
    (h : alistGet m k = some v) : (k, v) ∈ m := by
  induction m with
  | nil => simp [alistGet] at h
  | cons p rest ih =>
    by_cases hp : p.1 = k
    · rw [alistGet, if_pos hp] at h
      have hv : p.2 = v := by injection h
      have : (k, v) = p := by
        obtain ⟨a, b⟩ := p
        simp only at hp hv
        rw [hp, hv]
      exact this ▸ List.mem_cons_self p rest
    · rw [alistGet, if_neg hp] at h
      exact List.mem_cons_of_mem _ (ih h)

/-! ### `mismatch` lemmas -/

theorem mismatch_le_left {α : Type} [DecidableEq α] :
    ∀ (l r : List α), mismatch l r ≤ l.length
  | [], _ => by simp [mismatch]
  | _ :: _, [] => by simp [mismatch]
  | a :: l, b :: r => by
    by_cases h : a = b <;> simp [mismatch, h, mismatch_le_left l r]

theorem mismatch_le_right {α : Type} [DecidableEq α] :
    ∀ (l r : List α), mismatch l r ≤ r.length
  | [], _ => by simp [mismatch]
  | _ :: _, [] => by simp [mismatch]
  | a :: l, b :: r => by
    by_cases h : a = b <;> simp [mismatch, h, mismatch_le_right l r]

theorem mismatch_take_eq {α : Type} [DecidableEq α] :
    ∀ (l r : List α), l.take (mismatch l r) = r.take (mismatch l r)
  | [], _ => by simp [mismatch]
  | _ :: _, [] => by simp [mismatch]
  | a :: l, b :: r => by
    by_cases h : a = b <;> simp [mismatch, h, mismatch_take_eq l r]

theorem mismatch_min_or_ne {α : Type} [DecidableEq α] :
    ∀ (l r : List α), mismatch l r = min l.length r.length ∨
      l.get? (mismatch l r) ≠ r.get? (mismatch l r)
  | [], r => by simp [mismatch]
  | _ :: _, [] => by simp [mismatch]
  | a :: l, b :: r => by
    by_cases h : a = b
    · rcases mismatch_min_or_ne l r with h' | h'
      · refine Or.inl ?_
        simp only [mismatch, if_pos h, List.length_cons, h']
        omega
      · exact Or.inr (by simpa [mismatch, h] using h')
    · exact Or.inr (by simp [mismatch, h])

/-! ### Per-thread BEGIN/END counting -/

/-- Contribution of one merged event to thread `k`'s open-frame count. -/
def delta (k : Xid) (m : MergedEvent) : Int :=
  if xidOf m.event = k then
    match m.event_type with
    | EventType.BEGIN => 1
    | EventType.END => -1
  else 0

/-- Running BEGIN-minus-END count of thread `k` over a merged-event list. -/
def countKey (k : Xid) (ms : List MergedEvent) : Int :=
  (ms.map (delta k)).sum

@[simp]
theorem countKey_nil (k : Xid) : countKey k [] = 0 := rfl

theorem countKey_append (k : Xid) (a b : List MergedEvent) :
    countKey k (a ++ b) = countKey k a + countKey k b := by
  simp [countKey]

theorem countKey_take_append (k : Xid) (a b : List MergedEvent) (n : Nat) :
    countKey k ((a ++ b).take n) =
      countKey k (a.take n) + countKey k (b.take (n - a.length)) := by
  rw [List.take_append_eq_append_take, countKey_append]

theorem map_fun_const {α β : Type} (l : List α) (c : β) :
    l.map (fun _ => c) = List.replicate l.length c := by
  induction l with
  | nil => rfl
  | cons a l ih => simp [ih, List.replicate_succ]

theorem countKey_take_of_replicate {k : Xid} {ms : List MergedEvent} {L : Nat}
    {c : Int} (h : ms.map (delta k) = List.replicate L c) (n : Nat) :
    countKey k (ms.take n) = (min n L : Int) * c := by
  have : (ms.take n).map (delta k) = List.replicate (min n L) c := by
    rw [List.map_take, h, List.take_replicate]
  simp [countKey, this, List.sum_replicate, nsmul_eq_mul]

theorem countKey_of_replicate {k : Xid} {ms : List MergedEvent} {L : Nat}
    {c : Int} (h : ms.map (delta k) = List.replicate L c) :
    countKey k ms = (L : Int) * c := by
  simp [countKey, h, List.sum_replicate, nsmul_eq_mul]

theorem map_delta_beginsFrom (k : Xid) (e : Event) (midx : Nat) :
    (beginsFrom e midx).map (delta k) =
      List.replicate (e.stack.length - midx) (if xidOf e = k then 1 else 0) := by
  rw [beginsFrom, List.map_map]
  have : (delta k ∘ fun i =>
      (⟨e, EventType.BEGIN, i + midx⟩ : MergedEvent)) =
      fun _ => (if xidOf e = k then (1 : Int) else 0) := by
    funext i
    by_cases h : xidOf e = k <;> simp [delta, h]
  rw [this, map_fun_const, List.length_range]

theorem map_delta_endsFrom (k : Xid) (e : Event) (midx : Nat) :
    (endsFrom e midx).map (delta k) =
      List.replicate (e.stack.length - midx) (if xidOf e = k then -1 else 0) := by
  rw [endsFrom, List.map_map]
  have : (delta k ∘ fun i =>
      (⟨e, EventType.END, e.stack.length - (i + 1)⟩ : MergedEvent)) =
      fun _ => (if xidOf e = k then (-1 : Int) else 0) := by
    funext i
    by_cases h : xidOf e = k <;> simp [delta, h]
  rw [this, map_fun_const, List.length_range]

@[simp]
theorem beginsFrom_length (e : Event) (midx : Nat) :
    (beginsFrom e midx).length = e.stack.length - midx := by
  simp [beginsFrom]

@[simp]
theorem endsFrom_length (e : Event) (midx : Nat) :
    (endsFrom e midx).length = e.stack.length - midx := by
  simp [endsFrom]

/-! ### The merger's internal invariant -/

/-- Stack length of the remembered sample for key `k` (0 when untracked). -/
def lenAt (m : List (Xid × Event)) (k : Xid) : Int :=
  match alistGet m k with
  | none => 0
  | some e => e.stack.length

theorem lenAt_nonneg (m : List (Xid × Event)) (k : Xid) : 0 ≤ lenAt m k := by
  unfold lenAt
  cases h : alistGet m k <;> simp

theorem lenAt_alistSet_self (m : List (Xid × Event)) (k : Xid) (e : Event) :
    lenAt (alistSet m k e) k = e.stack.length := by
  unfold lenAt
  rw [alistGet_alistSet_self]

theorem lenAt_alistSet_ne (m : List (Xid × Event)) (k k' : Xid) (e : Event)
    (h : k' ≠ k) : lenAt (alistSet m k e) k' = lenAt m k' := by
  unfold lenAt
  rw [alistGet_alistSet_ne _ _ _ _ h]

@[simp]
theorem depthGet_alistSet_self (m : List (Xid × Int)) (k : Xid) (v : Int) :
    depthGet (alistSet m k v) k = v := by
  simp [depthGet]

theorem depthGet_alistSet_ne (m : List (Xid × Int)) (k k' : Xid) (v : Int)
    (h : k' ≠ k) : depthGet (alistSet m k v) k' = depthGet m k' := by
  simp [depthGet, alistGet_alistSet_ne _ _ _ _ h]

/-- Invariant of the `merge_events` loop state: the tracked open-frame count
of every key equals the remembered stack length (the program's assertion),
the dict keys are distinct, and every remembered sample is stored under its
own `(pid, tid)` key. -/
structure Good (s : MergeState) : Prop where
  inv : ∀ k, depthGet s.depth k = lenAt s.last k
  nodup : (s.last.map Prod.fst).Nodup
  keys : ∀ p ∈ s.last, xidOf p.2 = p.1

theorem good_init : Good initState := by
  refine ⟨fun k => ?_, ?_, ?_⟩
  · simp [initState, depthGet, lenAt, alistGet]
  · simp [initState]
  · intro p hp
    simp [initState] at hp

/-- Master lemma for one loop iteration: from a good state, the assertion
passes, the state stays good, and for every key the events yielded change
the running count by exactly the depth change while never driving the
running count of any prefix negative. -/
theorem mergeStep_master (s : MergeState) (e : Event) (hs : Good s) :
    (mergeStep s e).2.2 = true ∧ Good (mergeStep s e).1 ∧
    ∀ k, countKey k (mergeStep s e).2.1
            = depthGet (mergeStep s e).1.depth k - depthGet s.depth k ∧
      ∀ n, 0 ≤ depthGet s.depth k + countKey k ((mergeStep s e).2.1.take n) := by
  have hpos : ∀ k, 0 ≤ depthGet s.depth k := fun k => (hs.inv k) ▸ lenAt_nonneg _ _
  rcases hget : alistGet s.last (xidOf e) with _ | P
  · -- unseen key: BEGIN for every frame
    have hD0 : depthGet s.depth (xidOf e) = 0 := by
      rw [hs.inv]
      simp [lenAt, hget]
    simp only [mergeStep, hget]
    refine ⟨?_, ⟨?_, ?_, ?_⟩, ?_⟩
    · rw [decide_eq_true_eq, depthGet_alistSet_self, hD0, zero_add]
    · intro k
      by_cases hk : k = xidOf e
      · subst hk
        rw [depthGet_alistSet_self, lenAt_alistSet_self, hD0, zero_add]
      · rw [depthGet_alistSet_ne _ _ _ _ hk, lenAt_alistSet_ne _ _ _ _ hk, hs.inv]
    · exact nodup_map_fst_alistSet _ _ hs.nodup
    · intro p hp
      rcases mem_of_mem_alistSet hp with h' | h'
      · exact hs.keys p h'
      · rw [h']
    · intro k
      constructor
      · by_cases hk : xidOf e = k
        · rw [countKey_of_replicate (map_delta_beginsFrom k e 0), if_pos hk, hk,
            depthGet_alistSet_self]
          rw [← hk, hD0]
          simp
        · have hk' : k ≠ xidOf e := fun hh => hk hh.symm
          rw [countKey_of_replicate (map_delta_beginsFrom k e 0), if_neg hk,
            depthGet_alistSet_ne _ _ _ _ hk']
          simp
      · intro n
        rw [countKey_take_of_replicate (map_delta_beginsFrom k e 0)]
        by_cases hk : xidOf e = k
        · rw [if_pos hk]
          have := hpos k
          have h0 : (0 : Int) ≤ (min n (e.stack.length - 0) : Nat) := Int.ofNat_nonneg _
          omega
        · rw [if_neg hk]
          have := hpos k
          omega
  · -- seen key
    have hP : xidOf P = xidOf e := hs.keys (xidOf e, P) (mem_of_alistGet hget)
    have hDP : depthGet s.depth (xidOf e) = P.stack.length := by
      rw [hs.inv]
      simp [lenAt, hget]
    by_cases heq : P.stack = e.stack
    · -- identical stacks: continue, no events, no dict update
      simp only [mergeStep, hget, if_pos heq]
      refine ⟨trivial, ⟨hs.inv, hs.nodup, hs.keys⟩, ?_⟩
      intro k
      refine ⟨by simp, ?_⟩
      intro n
      have := hpos k
      simp only [List.take_nil, countKey_nil]
      omega
    · -- diverging stacks: ENDs leaf-to-root then BEGINs root-to-leaf
      have hm1 : mismatch P.stack e.stack ≤ P.stack.length := mismatch_le_left _ _
      have hm2 : mismatch P.stack e.stack ≤ e.stack.length := mismatch_le_right _ _
      simp only [mergeStep, hget, if_neg heq]
      set midx := mismatch P.stack e.stack with hmidx
      have hclosedx : xidOf { P with time := e.time } = xidOf e := hP
      have hclosedlen : ({ P with time := e.time } : Event).stack = P.stack := rfl
      refine ⟨?_, ⟨?_, ?_, ?_⟩, ?_⟩
      · rw [decide_eq_true_eq, depthGet_alistSet_self, hDP]
        omega
      · intro k
        by_cases hk : k = xidOf e
        · subst hk
          rw [depthGet_alistSet_self, lenAt_alistSet_self, hDP]
          omega
        · rw [depthGet_alistSet_ne _ _ _ _ hk, lenAt_alistSet_ne _ _ _ _ hk, hs.inv]
      · exact nodup_map_fst_alistSet _ _ hs.nodup
      · intro p hp
        rcases mem_of_mem_alistSet hp with h' | h'
        · exact hs.keys p h'
        · rw [h']
      · intro k
        have hends := map_delta_endsFrom k { P with time := e.time } midx
        rw [hclosedx] at hends
        have hbegins := map_delta_beginsFrom k e midx
        constructor
        · rw [countKey_append, countKey_of_replicate hends,
            countKey_of_replicate hbegins]
          by_cases hk : xidOf e = k
          · simp only [if_pos hk, hclosedlen]
            rw [← hk, depthGet_alistSet_self, hDP]
            omega
          · have hk' : k ≠ xidOf e := fun hh => hk hh.symm
            simp only [if_neg hk]
            rw [depthGet_alistSet_ne _ _ _ _ hk']
            simp
        · intro n
          rw [countKey_take_append, countKey_take_of_replicate hends,
            countKey_take_of_replicate hbegins, endsFrom_length]
          simp only [hclosedlen]
          by_cases hk : xidOf e = k
          · simp only [if_pos hk]
            rw [← hk, hDP]
            omega
          · simp only [if_neg hk]
            have := hpos k
            omega

/-- Master lemma for the whole loop: no assertion ever fails, the final
state is good, the events yielded change each key's count by exactly its
depth change, and no prefix drives a count below the starting depth. -/
theorem mergeRun_master : ∀ (events : List Event) (s : MergeState), Good s →
    (mergeRun events s).2.2 = true ∧ Good (mergeRun events s).2.1 ∧
    ∀ k, countKey k (mergeRun events s).1
            = depthGet (mergeRun events s).2.1.depth k - depthGet s.depth k ∧
      ∀ n, 0 ≤ depthGet s.depth k + countKey k ((mergeRun events s).1.take n)
  | [], s, hs => by
    refine ⟨rfl, hs, fun k => ⟨by simp [mergeRun], fun n => ?_⟩⟩
    have := (hs.inv k) ▸ lenAt_nonneg s.last k
    simp only [mergeRun, List.take_nil, countKey_nil]
    omega
  | e :: es, s, hs => by
    rcases hstep : mergeStep s e with ⟨s', evs, ok⟩
    obtain ⟨hok, hgood, hcount⟩ := mergeStep_master s e hs
    rw [hstep] at hok hgood hcount
    simp only at hok hgood hcount
    subst hok
    obtain ⟨hok2, hgood2, hcount2⟩ := mergeRun_master es s' hgood
    rcases hrun : mergeRun es s' with ⟨evs2, s'', ok2⟩
    rw [hrun] at hok2 hgood2 hcount2
    simp only at hok2 hgood2 hcount2
    simp only [mergeRun, hstep, hrun, if_true]
    refine ⟨hok2, hgood2, fun k => ⟨?_, fun n => ?_⟩⟩
    · rw [countKey_append]
      have h1 := (hcount k).1
      have h2 := (hcount2 k).1
      omega
    · rw [countKey_take_append]
      by_cases hn : n ≤ evs.length
      · have h0 : n - evs.length = 0 := Nat.sub_eq_zero_of_le hn
        rw [h0]
        simp only [List.take_zero, countKey_nil]
        have := (hcount k).2 n
        omega
      · have hfull : evs.take n = evs := List.take_of_length_le (le_of_not_le hn)
        rw [hfull]
        have h1 := (hcount k).1
        have h2 := (hcount2 k).2 (n - evs.length)
        omega

/-- Master lemma for the end-of-input flush: with distinct keys each stored
under its own sample's `(pid, tid)`, the flush contributes exactly
`-lenAt m k` to key `k`'s count and no prefix of it goes below that. -/
theorem flush_master : ∀ (m : List (Xid × Event)),
    (m.map Prod.fst).Nodup → (∀ p ∈ m, xidOf p.2 = p.1) → ∀ k,
    countKey k (flushEvents m) = -(lenAt m k) ∧
    ∀ n, -(lenAt m k) ≤ countKey k ((flushEvents m).take n)
  | [], _, _, k => by
    simp [flushEvents, lenAt, alistGet, countKey]
  | p :: rest, hnd, hkeys, k => by
    obtain ⟨k0, e0⟩ := p
    have hx0 : xidOf e0 = k0 := hkeys (k0, e0) (List.mem_cons_self _ _)
    simp only [List.map_cons, List.nodup_cons] at hnd
    have ih := flush_master rest hnd.2 (fun q hq => hkeys q (List.mem_cons_of_mem _ hq))
    have hflush : flushEvents ((k0, e0) :: rest) = endsFrom e0 0 ++ flushEvents rest := by
      simp [flushEvents]
    have hends := map_delta_endsFrom k e0 0
    by_cases hk : k = k0
    · subst hk
      have hnone : alistGet rest k = none := alistGet_eq_none_of_not_mem hnd.1
      have hlen0 : lenAt rest k = 0 := by simp [lenAt, hnone]
      have hlenm : lenAt ((k, e0) :: rest) k = e0.stack.length := by
        simp [lenAt, alistGet]
      rw [hflush, hlenm]
      rw [if_pos hx0] at hends
      constructor
      · rw [countKey_append, countKey_of_replicate hends, (ih k).1, hlen0]
        simp
      · intro n
        rw [countKey_take_append, countKey_take_of_replicate hends, endsFrom_length]
        have h2 := (ih k).2 (n - (e0.stack.length - 0))
        rw [hlen0] at h2
        omega
    · have hlen : lenAt ((k0, e0) :: rest) k = lenAt rest k := by
        have : ¬ k0 = k := fun hh => hk hh.symm
        simp [lenAt, alistGet, this]
      have hne : ¬ xidOf e0 = k := by
        rw [hx0]
        exact fun hh => hk hh.symm
      rw [if_neg hne] at hends
      rw [hflush, hlen]
      constructor
      · rw [countKey_append, countKey_of_replicate hends, (ih k).1]
        simp
      · intro n
        rw [countKey_take_append, countKey_take_of_replicate hends, endsFrom_length]
        have h2 := (ih k).2 (n - (e0.stack.length - 0))
        omega

/-! ### Structural lemmas for the claim statements -/

theorem beginsFrom_eq_range' (e : Event) (m : Nat) :
    beginsFrom e m = (List.range' m (e.stack.length - m)).map
      fun j => ({ event := e, event_type := EventType.BEGIN, stack_top := j } : MergedEvent) := by
  rw [beginsFrom, List.range'_eq_map_range, List.map_map]
  have hfun : ((fun j =>
        ({ event := e, event_type := EventType.BEGIN, stack_top := j } : MergedEvent))
          ∘ (m + ·)) =
      fun i => ({ event := e, event_type := EventType.BEGIN,
                  stack_top := i + m } : MergedEvent) := by
    funext i
    simp [Function.comp, Nat.add_comm]
  rw [hfun]

theorem endsFrom_eq_range' (e : Event) (m : Nat) (hm : m ≤ e.stack.length) :
    endsFrom e m = (List.range' m (e.stack.length - m)).reverse.map
      fun j => ({ event := e, event_type := EventType.END, stack_top := j } : MergedEvent) := by
  rw [List.reverse_range', List.map_map, endsFrom]
  have hfun : ((fun j =>
        ({ event := e, event_type := EventType.END, stack_top := j } : MergedEvent))
          ∘ (m + (e.stack.length - m) - 1 - ·)) =
      fun i => ({ event := e, event_type := EventType.END,
                  stack_top := e.stack.length - (i + 1) } : MergedEvent) := by
    funext i
    have h : m + (e.stack.length - m) - 1 - i = e.stack.length - (i + 1) := by omega
    simp [Function.comp, h]
  rw [hfun]

theorem parseHeader_stack_nil {h : String} {ev : Event}
    (hp : parseHeader h = some ev) : ev.stack = [] := by
  unfold parseHeader at hp
  split at hp
  · split at hp
    · split at hp
      · injection hp with hq
        rw [← hq]
      · exact Option.noConfusion hp
    · exact Option.noConfusion hp
  · exact Option.noConfusion hp

theorem parseGo_stack_ne_nil : ∀ (lines : List String) (st : Option Event),
    ∀ e ∈ (parseGo lines st).1, e.stack ≠ []
  | [], st => by simp [parseGo]
  | line :: rest, none => by
    intro e he
    rw [parseGo] at he
    rcases hp : parseHeader line with _ | ev
    · rw [hp] at he
      simp at he
    · rw [hp] at he
      exact parseGo_stack_ne_nil rest (some ev) e he
  | line :: rest, some ev => by
    intro e he
    rw [parseGo] at he
    by_cases hb : pyStrip line = ""
    · rw [if_pos hb] at he
      rcases List.mem_cons.1 he with h1 | h1
      · subst h1
        by_cases hnil : ev.stack = []
        · simp [if_pos hnil]
        · simp only [if_neg hnil]
          exact hnil
      · exact parseGo_stack_ne_nil rest none e h1
    · rw [if_neg hb] at he
      rcases hsp : pySplitWs line with _ | ⟨a, sym⟩
      · rw [hsp] at he
        simp at he
      · rw [hsp] at he
        exact parseGo_stack_ne_nil rest _ e he

theorem convertGo_master : ∀ (ms : List MergedEvent) (first : Bool),
    objsOf (convertGo ms first).1 = (ms.takeWhile inRange).map traceOf ∧
    ((convertGo ms first).2 = true ↔ ∀ x ∈ ms, inRange x = true)
  | [], first => by simp [convertGo, objsOf]
  | m :: ms, first => by
    obtain ⟨ih1, ih2⟩ := convertGo_master ms false
    rcases hr : convertGo ms false with ⟨toks, fin⟩
    rw [hr] at ih1 ih2
    simp only at ih1 ih2
    by_cases hm : inRange m
    · rw [convertGo]
      simp only [if_pos hm, hr]
      constructor
      · cases first <;>
          simp [objsOf, List.filterMap_append, List.takeWhile_cons, hm, ← ih1]
      · simp only [List.mem_cons]
        constructor
        · intro hf x hx
          rcases hx with h1 | h1
          · exact h1 ▸ hm
          · exact ih2.1 hf x h1
        · intro hall
          exact ih2.2 fun x hx => hall x (Or.inr hx)
    · rw [convertGo]
      simp only [if_neg hm]
      constructor
      · cases first <;> simp [objsOf, List.takeWhile_cons, hm]
      · constructor
        · intro hf
          exact absurd hf (by simp)
        · intro hall
          exact absurd (hall m (List.mem_cons_self _ _)) hm

/-! ### Claim theorems -/

/-- C1: for every merger input and every thread key `(processId, threadId)`,
the merged event sequence produced by the merger including the end-of-input
flush is well-nested — every prefix has a nonnegative running BEGIN-minus-END
count for that key — and balanced: the total count for that key is zero. -/
theorem merger_well_nested_balanced (events : List Event) (k : Xid) :
    (∀ n, 0 ≤ countKey k ((mergeFull events).take n)) ∧
    countKey k (mergeFull events) = 0 := by
  obtain ⟨hok, hgood, hcount⟩ := mergeRun_master events initState good_init
  rcases hrun : mergeRun events initState with ⟨evs, sf, okf⟩
  rw [hrun] at hok hgood hcount
  simp only at hok hgood hcount
  have hfl := flush_master sf.last hgood.nodup hgood.keys k
  have hD0 : depthGet initState.depth k = 0 := by
    simp [initState, depthGet, alistGet]
  have hDf : depthGet sf.depth k = lenAt sf.last k := hgood.inv k
  have hfull : mergeFull events = evs ++ flushEvents sf.last := by
    simp only [mergeFull, hrun]
  constructor
  · intro n
    rw [hfull, countKey_take_append]
    by_cases hn : n ≤ evs.length
    · have h0 : n - evs.length = 0 := Nat.sub_eq_zero_of_le hn
      rw [h0]
      simp only [List.take_zero, countKey_nil]
      have := (hcount k).2 n
      omega
    · have hfulltake : evs.take n = evs := List.take_of_length_le (le_of_not_le hn)
      rw [hfulltake]
      have h1 := (hcount k).1
      have h2 := hfl.2 (n - evs.length)
      omega
  · rw [hfull, countKey_append]
    have h1 := (hcount k).1
    have h2 := hfl.1
    omega

/-- C6: the merger's per-sample assertion — the tracked open-frame counter
for a key equals the stored last-seen sample's stack length — never fails:
on any sample sequence, and in particular on the parser's output for any
input, every assert passes, and each tracked key's counter equals its
stored stack length in the final state as well. -/
theorem merger_depth_assert_never_fails (lines : List String) (events : List Event) :
    (mergeRun events initState).2.2 = true ∧
    (∀ k, depthGet (mergeRun events initState).2.1.depth k
        = lenAt (mergeRun events initState).2.1.last k) ∧
    (mergeRun (parse_events lines).1 initState).2.2 = true := by
  obtain ⟨hok, hgood, _⟩ := mergeRun_master events initState good_init
  obtain ⟨hok2, _, _⟩ := mergeRun_master (parse_events lines).1 initState good_init
  exact ⟨hok, hgood.inv, hok2⟩

/-- C2: when a sample `S` arrives for a seen key whose previous sample `P`
has a different frame sequence, the merger emits exactly END events for
`P`'s positions from `len(P.frames) - 1` down to the divergence index, in
decreasing order, followed by BEGIN events for `S`'s positions from the
divergence index up to `len(S.frames) - 1`, in increasing order; and the
divergence index is the first differing position, or the shorter length
when one sequence is a prefix of the other. -/
theorem merger_divergence_event_order (s : MergeState) (P S : Event)
    (h1 : alistGet s.last (xidOf S) = some P) (h2 : P.stack ≠ S.stack) :
    (mergeStep s S).2.1
      = (List.range' (mismatch P.stack S.stack)
            (P.stack.length - mismatch P.stack S.stack)).reverse.map
          (fun j => ({ event := { P with time := S.time },
                       event_type := EventType.END, stack_top := j } : MergedEvent))
        ++ (List.range' (mismatch P.stack S.stack)
            (S.stack.length - mismatch P.stack S.stack)).map
          (fun j => ({ event := S, event_type := EventType.BEGIN,
                       stack_top := j } : MergedEvent)) ∧
    P.stack.take (mismatch P.stack S.stack) = S.stack.take (mismatch P.stack S.stack) ∧
    (mismatch P.stack S.stack = min P.stack.length S.stack.length ∨
      P.stack.get? (mismatch P.stack S.stack) ≠ S.stack.get? (mismatch P.stack S.stack)) := by
  refine ⟨?_, mismatch_take_eq _ _, mismatch_min_or_ne _ _⟩
  simp only [mergeStep, h1, if_neg h2]
  rw [endsFrom_eq_range' { P with time := S.time } (mismatch P.stack S.stack)
      (mismatch_le_left P.stack S.stack), beginsFrom_eq_range']

/-- C2 witness: previous stack `[a, b, c]`, new stack `[a, b, d, e]` for the
same thread yield exactly `END(c), BEGIN(d), BEGIN(e)` in that order. -/
theorem merger_divergence_event_order_witness :
    alistGet stateABC.last (xidOf sampleABDE) = some sampleABC ∧
    sampleABC.stack ≠ sampleABDE.stack ∧
    (mergeStep stateABC sampleABDE).2.1
      = [xEndABC,
         { event := sampleABDE, event_type := EventType.BEGIN, stack_top := 2 },
         { event := sampleABDE, event_type := EventType.BEGIN, stack_top := 3 }] := by
  refine ⟨rfl, by decide, ?_⟩
  have h := merger_divergence_event_order stateABC sampleABC sampleABDE rfl (by decide)
  rw [h.1]
  rfl

/-- C4: a sample whose frame sequence equals the previous sample's for the
same key produces no events, the stored last-seen sample is still `P` (not
replaced by `S`), and in particular its timestamp is unchanged. -/
theorem merger_identical_stacks_noop (s : MergeState) (P S : Event)
    (h1 : alistGet s.last (xidOf S) = some P) (h2 : P.stack = S.stack) :
    (mergeStep s S).2.1 = [] ∧
    alistGet (mergeStep s S).1.last (xidOf S) = some P ∧
    ∀ Q, alistGet (mergeStep s S).1.last (xidOf S) = some Q → Q.time = P.time := by
  simp only [mergeStep, h1, if_pos h2]
  refine ⟨trivial, trivial, ?_⟩
  intro Q hQ
  injection hQ with h
  rw [← h]

/-- C4 witness: a repeat of stack `[a, b, c]` at a later time emits nothing
and leaves the time-3 sample stored. -/
theorem merger_identical_stacks_noop_witness :
    alistGet stateABC.last (xidOf sampleABC9) = some sampleABC ∧
    sampleABC.stack = sampleABC9.stack ∧
    (mergeStep stateABC sampleABC9).2.1 = [] ∧
    alistGet (mergeStep stateABC sampleABC9).1.last (xidOf sampleABC9) = some sampleABC := by
  have h := merger_identical_stacks_noop stateABC sampleABC sampleABC9 rfl rfl
  exact ⟨rfl, rfl, h.1, h.2.1⟩

/-- C5: in the divergence branch every END event carries the incoming
sample's timestamp `S.time`, and the emitter therefore writes
`ts = S.time * 1000000` for it. -/
theorem merger_divergence_end_timestamp (s : MergeState) (P S : Event)
    (h1 : alistGet s.last (xidOf S) = some P) (h2 : P.stack ≠ S.stack) :
    ∀ x ∈ (mergeStep s S).2.1, x.event_type = EventType.END →
      x.event.time = S.time ∧ (traceOf x).ts = S.time * 1000000 := by
  simp only [mergeStep, h1, if_neg h2]
  intro x hx hEND
  rcases List.mem_append.1 hx with h | h
  · rw [endsFrom] at h
    rcases List.mem_map.1 h with ⟨i, _, rfl⟩
    exact ⟨rfl, rfl⟩
  · rw [beginsFrom] at h
    rcases List.mem_map.1 h with ⟨i, _, rfl⟩
    simp at hEND

/-- C5 witness: the END for frame `c` produced by the `[a, b, c]` to
`[a, b, d, e]` divergence carries time 4 (the incoming sample's), so its
emitted `ts` is 4000000. -/
theorem merger_divergence_end_timestamp_witness :
    xEndABC ∈ (mergeStep stateABC sampleABDE).2.1 ∧
    xEndABC.event.time = sampleABDE.time ∧
    (traceOf xEndABC).ts = sampleABDE.time * 1000000 := by
  have hmem : xEndABC ∈ (mergeStep stateABC sampleABDE).2.1 := by decide
  have h := merger_divergence_end_timestamp stateABC sampleABC sampleABDE rfl
    (by decide) xEndABC hmem rfl
  exact ⟨hmem, h.1, h.2⟩

/-- C3: the merger's output is its per-sample events followed by the
end-of-input flush; the flush emits, for every tracked key in dict order,
END events for every frame of that key's last-seen sample from the last
index down to index 0, and contains no BEGIN events; a remembered stack of
length 3 yields exactly ENDs at indices 2, 1, 0. -/
theorem merger_flush_ends_all :
    (∀ events : List Event, mergeFull events
        = (mergeRun events initState).1
          ++ flushEvents (mergeRun events initState).2.1.last) ∧
    (∀ m : List (Xid × Event), flushEvents m
        = m.flatMap fun p => (List.range p.2.stack.length).reverse.map fun j =>
            ({ event := p.2, event_type := EventType.END, stack_top := j } : MergedEvent)) ∧
    (∀ (m : List (Xid × Event)) (x : MergedEvent),
        x ∈ flushEvents m → x.event_type = EventType.END) ∧
    flushEvents [((1, 2), sampleABC)]
      = [{ event := sampleABC, event_type := EventType.END, stack_top := 2 },
         { event := sampleABC, event_type := EventType.END, stack_top := 1 },
         { event := sampleABC, event_type := EventType.END, stack_top := 0 }] := by
  refine ⟨fun events => rfl, ?_, ?_, by decide⟩
  · intro m
    unfold flushEvents
    have hfun : (fun p : Xid × Event => endsFrom p.2 0)
        = fun p => (List.range p.2.stack.length).reverse.map fun j =>
            ({ event := p.2, event_type := EventType.END, stack_top := j } : MergedEvent) := by
      funext p
      rw [endsFrom_eq_range' p.2 0 (Nat.zero_le _), List.range_eq_range', Nat.sub_zero]
    rw [hfun]
  · intro m x hx
    unfold flushEvents at hx
    rcases List.mem_flatMap.1 hx with ⟨p, _, hp⟩
    rw [endsFrom] at hp
    rcases List.mem_map.1 hp with ⟨i, _, rfl⟩
    rfl

/-- C3 witness: the END for the leaf frame of `[a, b, c]` is in the flush of
a state remembering that stack, and it is an END event. -/
theorem merger_flush_ends_all_witness :
    ({ event := sampleABC, event_type := EventType.END, stack_top := 2 } : MergedEvent)
        ∈ flushEvents [((1, 2), sampleABC)] ∧
    ({ event := sampleABC, event_type := EventType.END, stack_top := 2 } : MergedEvent).event_type
        = EventType.END := by
  have hm : ({ event := sampleABC, event_type := EventType.END, stack_top := 2 } : MergedEvent)
      ∈ flushEvents [((1, 2), sampleABC)] := by decide
  exact ⟨hm, merger_flush_ends_all.2.2.1 _ _ hm⟩

/-- C7: every sample the parser yields has a nonempty frame sequence; a
record consisting of a header line directly followed by a blank line yields
exactly the sentinel stack `["[[nostack]]"]`; and a repeated sentinel-stack
sample for the same thread makes the merger emit nothing. -/
theorem parser_sentinel_nonempty :
    (∀ lines : List String, ∀ e ∈ (parse_events lines).1, e.stack ≠ []) ∧
    (∀ (h b : String) (rest : List String) (ev : Event),
      parseHeader h = some ev → pyStrip b = "" →
      parseGo (h :: b :: rest) none
        = ({ ev with stack := ["[[nostack]]"] } :: (parseGo rest none).1,
           (parseGo rest none).2)) ∧
    (∀ (s : MergeState) (P S : Event), alistGet s.last (xidOf S) = some P →
      P.stack = ["[[nostack]]"] → S.stack = ["[[nostack]]"] →
      (mergeStep s S).2.1 = []) := by
  refine ⟨fun lines => parseGo_stack_ne_nil lines none, ?_, ?_⟩
  · intro h b rest ev hh hb
    have hnil : ev.stack = [] := parseHeader_stack_nil hh
    simp only [parseGo, hh, hb, hnil, if_pos, if_true]
  · intro s P S hget hP hS
    have hPS : P.stack = S.stack := by rw [hP, hS]
    simp only [mergeStep, hget, if_pos hPS]

/-- C7 witness: a header with no frame lines parses to the sentinel stack
(one sample, nonempty frames). -/
theorem parser_sentinel_nonempty_witness :
    parseHeader "comm 1/2 5:" = some { pid := 1, tid := 2, time := 5, comm := "comm" } ∧
    pyStrip "" = "" ∧
    parseGo ["comm 1/2 5:", ""] none
      = ([{ pid := 1, tid := 2, time := 5, comm := "comm",
            stack := ["[[nostack]]"] }], true) := by
  refine ⟨by decide, rfl, ?_⟩
  have h := parser_sentinel_nonempty.2.1 "comm 1/2 5:" "" []
    { pid := 1, tid := 2, time := 5, comm := "comm" } (by decide) rfl
  rw [h]
  rfl

/-- C8 (amended): a header line that does not split into exactly three
whitespace tokens, or whose pid/tid token does not split into exactly two
parts on `/`, or whose timestamp token is non-numeric after stripping all
leading and trailing `:` characters (Python `strip(":")`), fails to parse;
a failed header aborts the parse with no further samples yielded and no
recovery; and a parser failure makes the whole merge pipeline report
failure. -/
theorem parser_malformed_header_fatal :
    (∀ h : String, (pySplitWs h).length ≠ 3 → parseHeader h = none) ∧
    (∀ (h comm pid_tid tstamp : String), pySplitWs h = [comm, pid_tid, tstamp] →
        (pySplitOn pid_tid '/').length ≠ 2 → parseHeader h = none) ∧
    (∀ (h comm pid_tid tstamp : String), pySplitWs h = [comm, pid_tid, tstamp] →
        pyFloat (pyStripChars [':'] tstamp) = none → parseHeader h = none) ∧
    (∀ (h : String) (rest : List String), parseHeader h = none →
        parseGo (h :: rest) none = ([], false)) ∧
    (∀ lines : List String, (parse_events lines).2 = false →
        (merge_events lines).2 = false) := by
  refine ⟨?_, ?_, ?_, ?_, ?_⟩
  · intro h hlen
    unfold parseHeader
    split
    · next comm pid_tid tstamp heq =>
        exact absurd (by rw [heq]; rfl) hlen
    · rfl
  · intro h comm pid_tid tstamp heq hlen2
    unfold parseHeader
    simp only [heq]
    split
    · next pid tid heq2 =>
        exact absurd (by rw [heq2]; rfl) hlen2
    · rfl
  · intro h comm pid_tid tstamp heq hfl
    unfold parseHeader
    simp only [heq]
    split
    · next pid tid heq2 =>
        rcases pyInt pid with _ | p <;> rcases pyInt tid with _ | t <;> simp [hfl]
    · rfl
  · intro h rest hnone
    simp only [parseGo, hnone]
  · intro lines hp
    unfold merge_events
    cases hb : (mergeRun (parse_events lines).1 initState).2.2 <;> simp [hb, hp]

/-- C8 witness: a two-token header fails to parse and kills the run even
though a valid record follows. -/
theorem parser_malformed_header_fatal_witness :
    (pySplitWs "one two").length ≠ 3 ∧
    parseHeader "one two" = none ∧
    parseGo ["one two", "comm 1/2 5:", ""] none = ([], false) := by
  have h1 : (pySplitWs "one two").length ≠ 3 := by decide
  have h2 := parser_malformed_header_fatal.1 "one two" h1
  exact ⟨h1, h2, parser_malformed_header_fatal.2.2.2.1 "one two" _ h2⟩

/-- C9: if the emitter reaches a merged event whose frame index is out of
range for its sample's frames, it emits no further JSON objects but still
writes the closing `]`: the output's last token is the close bracket and
its objects are exactly those of the longest in-range prefix. -/
theorem emitter_truncation_closes_array (ms : List MergedEvent) (pok : Bool)
    (h : ∃ x ∈ ms, inRange x = false) :
    (emit ms pok).getLast? = some OutTok.closeB ∧
    objsOf (emit ms pok) = (ms.takeWhile inRange).map traceOf := by
  obtain ⟨hobjs, hiff⟩ := convertGo_master ms true
  have hfin : (convertGo ms true).2 = false := by
    rcases h with ⟨x, hx, hbad⟩
    rcases hb : (convertGo ms true).2 with _ | _
    · rfl
    · have := hiff.1 hb x hx
      rw [hbad] at this
      exact absurd this Bool.false_ne_true
  simp only [emit, hfin, Bool.false_and, Bool.false_eq_true, if_false]
  constructor
  · exact List.getLast?_concat _
  · have hsplit : objsOf ((OutTok.openB :: (convertGo ms true).1) ++ [OutTok.closeB])
        = objsOf (convertGo ms true).1 := by
      simp [objsOf, List.filterMap_append]
    rw [hsplit, hobjs]

/-- C9 witness: a single out-of-range merged event yields a closed, empty
object list. -/
theorem emitter_truncation_closes_array_witness :
    inRange badMerged = false ∧
    (emit [badMerged] true).getLast? = some OutTok.closeB ∧
    objsOf (emit [badMerged] true) = ([badMerged].takeWhile inRange).map traceOf := by
  have h := emitter_truncation_closes_array [badMerged] true
    ⟨badMerged, List.mem_singleton.2 rfl, rfl⟩
  exact ⟨rfl, h.1, h.2⟩

/-- C10: a final record whose frame lines are not followed by a blank line
is never yielded: at end of input an in-progress record is dropped, any run
of non-blank lines in the in-record state yields nothing, and a concrete
unterminated record contributes no samples and no merged events. -/
theorem parser_unterminated_record_dropped :
    (∀ e : Event, parseGo [] (some e) = ([], true)) ∧
    (∀ (lines : List String) (e : Event), (∀ l ∈ lines, pyStrip l ≠ "") →
      (parseGo lines (some e)).1 = []) ∧
    merge_events ["comm 1/2 3:", "40 f"] = ([], true) := by
  refine ⟨fun e => rfl, ?_, by decide⟩
  intro lines
  induction lines with
  | nil =>
    intro e _
    rfl
  | cons l rest ih =>
    intro e hall
    have hl : ¬ pyStrip l = "" := hall l (List.mem_cons_self _ _)
    rw [parseGo, if_neg hl]
    rcases hsp : pySplitWs l with _ | ⟨a, sym⟩
    · rfl
    · exact ih _ fun x hx => hall x (List.mem_cons_of_mem _ hx)

/-- C10 witness: a lone frame line after entering a record yields no
samples. -/
theorem parser_unterminated_record_dropped_witness :
    (∀ l ∈ ["40 f"], pyStrip l ≠ "") ∧
    (parseGo ["40 f"] (some sampleABC)).1 = [] := by
  have hall : ∀ l ∈ ["40 f"], pyStrip l ≠ "" := by decide
  exact ⟨hall, parser_unterminated_record_dropped.2.1 ["40 f"] sampleABC hall⟩

/-- C8 counterexample: for the header `"c 1/2 5::"` the timestamp token is
`"5::"`; after stripping the trailing `:` it reads `"5:"`, which is
non-numeric, yet the parser accepts the record and yields its sample with
time 5 — Python's `strip(":")` removes every leading and trailing colon,
not just a trailing one, so such a header is not fatal. -/
theorem parser_malformed_header_fatal_counterexample :
    pySplitWs "c 1/2 5::" = ["c", "1/2", "5::"] ∧
    pyFloat "5:" = none ∧
    parse_events ["c 1/2 5::", ""]
      = ([{ pid := 1, tid := 2, time := 5, comm := "c",
            stack := ["[[nostack]]"] }], true) := by
  refine ⟨by decide, by decide, by decide⟩
